import Mathlib

/-!
# grabcut_edge_detection

A shallow embedding of `grabcut_edge_detection.cpp`: the multi-scale edge
extractor, the foreground segmenter, the score aggregator and the driver.

* A `cv::Mat` is a pair of dimensions with a pixel accessor; only the pixels
  `px r c` with `r < rows` and `c < cols` are meaningful.
* Doubles are exact rationals.
* The computer-vision library is a record `Lib` of primitives. What the
  library documents about the size of a result is built into the call sites
  (a blur, an edge detector, a colour conversion and the segmentation mask
  keep the size of their input, a resize gives the requested size); the
  pixel contents and the raising of `cv::Exception` are left to the record.
* Every function returns, next to its value, the list of `Event`s it produced:
  the text sent to `std::cout` and `std::cerr` and the library primitives it
  invoked. A value `none` stands for a `cv::Exception` that leaves the function.
-/

namespace GrabcutEdge

/-! ## Data model -/

/-- Array of pixels as `cv::Mat` holds it: `rows`, `cols` and the pixel at row `r`, column `c`. -/
structure Mat (α : Type) where
  rows : Nat
  cols : Nat
  px : Nat → Nat → α

/-- Pixel of a three-channel 8-bit image. -/
abbrev Color : Type := Nat × Nat × Nat

/-- Rectangle `cv::Rect`, with `int` fields. -/
structure Rect where
  x : Int
  y : Int
  width : Int
  height : Int
deriving DecidableEq, Repr

/-- Library primitives whose invocation is recorded in the event list. -/
inductive Prim where
  | imread
  | resize
  | cvtColor
  | GaussianBlur
  | Canny
  | morphologyEx
  | grabCut
deriving DecidableEq, Repr

/-- Observable step of a run. `cout` and `cerr` carry the text of one `<<` chain
(line ends left out), `coutSize` is the line `Loaded image with size: cols x rows`,
`coutScore` a label followed by a double, and `call p rows cols` the invocation of
primitive `p` on an array of `rows` by `cols` pixels. -/
inductive Event where
  | cout (text : String)
  | coutSize (cols rows : Nat)
  | coutScore (label : String) (value : ℚ)
  | cerr (text : String)
  | call (p : Prim) (rows cols : Nat)
deriving DecidableEq

/-- The external library. `GaussianBlur`, `Canny` and `grabCut` give the pixels of
their result, or `none` when they raise `cv::Exception`; `mul_unmatched` is what the
element-wise product does on operands of different sizes; `cast_out_of_range` is the
value a conversion of an out-of-range double to `int` happens to produce. -/
structure Lib where
  imread : String → Mat Color
  resize : Mat Color → Nat → Nat → Nat → Nat → Color
  cvtColor : Mat Color → Nat → Nat → Nat
  GaussianBlur : Mat Nat → Int → ℚ → Option (Nat → Nat → Nat)
  Canny : Mat Nat → Nat → Nat → Option (Nat → Nat → Nat)
  grabCut : Mat Color → Mat Nat → Rect → Nat → Option (Nat → Nat → Nat)
  mul_unmatched : Mat ℚ → Mat ℚ → Option (Mat ℚ)
  cast_out_of_range : ℚ → Int

namespace Mat

/-- Result of `cv::Mat::zeros(size, type)`. -/
def zeros {α : Type} [Zero α] (rows cols : Nat) : Mat α :=
  ⟨rows, cols, fun _ _ => 0⟩

/-- Result of `cv::Mat::empty()`: no pixel at all. -/
def empty {α : Type} (m : Mat α) : Bool :=
  m.rows == 0 || m.cols == 0

/-- Result of `cv::max(a, b)` on two arrays of one size. -/
def max (a b : Mat Nat) : Mat Nat :=
  ⟨a.rows, a.cols, fun r c => Nat.max (a.px r c) (b.px r c)⟩

/-- Result of `convertTo(_, CV_64F, alpha)`: every pixel times `alpha`. -/
def convertTo (m : Mat ℚ) (alpha : ℚ) : Mat ℚ :=
  ⟨m.rows, m.cols, fun r c => m.px r c * alpha⟩

/-- Result of `convertTo(_, CV_64F)` on an 8-bit array. -/
def toDouble (m : Mat Nat) : Mat ℚ :=
  ⟨m.rows, m.cols, fun r c => (m.px r c : ℚ)⟩

/-- In-place `m /= d`. -/
def divScalar (m : Mat ℚ) (d : ℚ) : Mat ℚ :=
  ⟨m.rows, m.cols, fun r c => m.px r c / d⟩

/-- First component of `cv::sum(m)`. -/
def sum (m : Mat ℚ) : ℚ :=
  ∑ r ∈ Finset.range m.rows, ∑ c ∈ Finset.range m.cols, m.px r c

/-- First component of `cv::mean(m)`: the sum times the reciprocal of the pixel count,
and `0` for an array without pixels. -/
def mean (m : Mat ℚ) : ℚ :=
  if m.rows * m.cols = 0 then 0 else m.sum * (1 / ((m.rows * m.cols : Nat) : ℚ))

/-- Evaluation of `a.mul(b)`: the element-wise product on operands of one size,
the library's own business otherwise. -/
def mul (lib : Lib) (a b : Mat ℚ) : Option (Mat ℚ) :=
  if a.rows = b.rows ∧ a.cols = b.cols then
    some ⟨a.rows, a.cols, fun r c => a.px r c * b.px r c⟩
  else lib.mul_unmatched a b

/-- Every pixel of `a` is at most the pixel of `b` at the same place. -/
def le (a b : Mat Nat) : Prop :=
  a.rows = b.rows ∧ a.cols = b.cols ∧
    ∀ r, r < a.rows → ∀ c, c < a.cols → a.px r c ≤ b.px r c

/-- Every pixel is zero. -/
def allZero (m : Mat Nat) : Prop :=
  ∀ r, r < m.rows → ∀ c, c < m.cols → m.px r c = 0

instance (a b : Mat Nat) : Decidable (Mat.le a b) := by
  unfold Mat.le; infer_instance

instance (m : Mat Nat) : Decidable (Mat.allZero m) := by
  unfold Mat.allZero; infer_instance

end Mat

/-! ## Multi-scale edge extractor -/

/-- Value of `std::round`: the nearest integer, halfway cases away from zero. -/
def round_half_away (x : ℚ) : Int :=
  if 0 ≤ x then ⌊x + 1 / 2⌋ else ⌈x - 1 / 2⌉

/-- Value of `static_cast<int>` on an integral double `v` that came from `x`: the integer
itself when it fits 32 bits, whatever the conversion produces otherwise. -/
def static_cast_int (lib : Lib) (x : ℚ) (v : Int) : Int :=
  if -2147483648 ≤ v ∧ v ≤ 2147483647 then v else lib.cast_out_of_range x

/-- Line 11: `std::max(3, static_cast<int>(std::round(sigma * 2.0 + 1)))`. -/
def kernel_size (lib : Lib) (sigma : ℚ) : Int :=
  Max.max 3 (static_cast_int lib (sigma * 2 + 1) (round_half_away (sigma * 2 + 1)))

/-- Sigma list that `multi_scale_canny` takes by default. -/
def default_sigma_list : List ℚ := [1, 2, 3]

/-- Body of the loop of `multi_scale_canny` (lines 10 to 14) up to the edge map of one
scale: the events and the map, `none` when a primitive raises. -/
def scale_edges (lib : Lib) (image : Mat Nat) (sigma : ℚ) : List Event × Option (Mat Nat) :=
  match lib.GaussianBlur image (kernel_size lib sigma) sigma with
  | none => ([Event.call Prim.GaussianBlur image.rows image.cols], none)
  | some b =>
    let blurred : Mat Nat := ⟨image.rows, image.cols, b⟩
    match lib.Canny blurred 50 150 with
    | none =>
      ([Event.call Prim.GaussianBlur image.rows image.cols,
        Event.call Prim.Canny blurred.rows blurred.cols], none)
    | some e =>
      ([Event.call Prim.GaussianBlur image.rows image.cols,
        Event.call Prim.Canny blurred.rows blurred.cols],
       some ⟨blurred.rows, blurred.cols, e⟩)

/-- Loop of `multi_scale_canny` (lines 9 to 16) from the accumulator `edges_combined`. -/
def canny_loop (lib : Lib) (image : Mat Nat) :
    List ℚ → Mat Nat → List Event × Option (Mat Nat)
  | [], edges_combined => ([], some edges_combined)
  | sigma :: rest, edges_combined =>
    match scale_edges lib image sigma with
    | (ev, none) => (ev, none)
    | (ev, some edges) =>
      let next := canny_loop lib image rest (Mat.max edges_combined edges)
      (ev ++ next.1, next.2)

/-- In-image places of the 3 by 3 rectangle centred at `(r, c)`, one coordinate. -/
def window (n i : Nat) : List Nat :=
  (if 0 < i then [i - 1] else []) ++ [i] ++ (if i + 1 < n then [i + 1] else [])

/-- In-image places of the 3 by 3 rectangle centred at `(r, c)`. -/
def neighbours (rows cols r c : Nat) : List (Nat × Nat) :=
  (window rows r).flatMap fun r1 => (window cols c).map fun c1 => (r1, c1)

/-- Result of `cv::dilate` with the 3 by 3 rectangle and the default border: the largest
pixel of the window, places outside the image left out. -/
def dilate (m : Mat Nat) : Mat Nat :=
  ⟨m.rows, m.cols, fun r c =>
    ((neighbours m.rows m.cols r c).map fun q => m.px q.1 q.2).foldl Nat.max (m.px r c)⟩

/-- Result of `cv::erode` with the 3 by 3 rectangle and the default border: the smallest
pixel of the window, places outside the image left out. -/
def erode (m : Mat Nat) : Mat Nat :=
  ⟨m.rows, m.cols, fun r c =>
    ((neighbours m.rows m.cols r c).map fun q => m.px q.1 q.2).foldl Nat.min (m.px r c)⟩

/-- Result of `cv::morphologyEx(_, _, cv::MORPH_CLOSE, 3x3 MORPH_RECT)`: a dilation
followed by an erosion. -/
def morph_close (m : Mat Nat) : Mat Nat :=
  erode (dilate m)

/-- Function `multi_scale_canny` (lines 6 to 22). -/
def multi_scale_canny (lib : Lib) (image : Mat Nat) (sigma_list : List ℚ) :
    List Event × Option (Mat Nat) :=
  let edges_combined : Mat Nat := Mat.zeros image.rows image.cols
  match canny_loop lib image sigma_list edges_combined with
  | (ev, none) => (ev, none)
  | (ev, some combined) =>
    (ev ++ [Event.call Prim.morphologyEx combined.rows combined.cols],
     some (morph_close combined))

/-! ## Foreground segmenter -/

/-- Labels of the segmentation mask. -/
def GC_BGD : Nat := 0

/-- Label of a pixel that is surely foreground. -/
def GC_FGD : Nat := 1

/-- Label of a pixel that is probably background. -/
def GC_PR_BGD : Nat := 2

/-- Label of a pixel that is probably foreground. -/
def GC_PR_FGD : Nat := 3

/-- Lines 32 and 33: the seed rectangle of an image of `cols` by `rows` pixels. -/
def seed_rect (cols rows : Nat) : Rect :=
  let border : Int := Min.min (cols : Int) (rows : Int) / 10
  ⟨border, border, (cols : Int) - 2 * border, (rows : Int) - 2 * border⟩

/-- Test of line 36. -/
def too_small (rect : Rect) : Bool :=
  decide (rect.width ≤ 1) || decide (rect.height ≤ 1)

/-- Pixel of `mask == label`: 255 where equal, 0 elsewhere. -/
def cmp_eq (v label : Nat) : Nat :=
  if v = label then 255 else 0

/-- Line 50: `(mask == cv::GC_FGD) | (mask == cv::GC_PR_FGD)`. -/
def fg_mask (mask : Mat Nat) : Mat Nat :=
  ⟨mask.rows, mask.cols, fun r c =>
    cmp_eq (mask.px r c) GC_FGD ||| cmp_eq (mask.px r c) GC_PR_FGD⟩

/-- Function `grabcut_foreground` (lines 24 to 54). The array returned is 8-bit on the two
early returns and double on the last one; its values are given as rationals here. -/
def grabcut_foreground (lib : Lib) (image : Mat Color) : List Event × Mat ℚ :=
  let mask : Mat Nat := ⟨image.rows, image.cols, fun _ _ => GC_BGD⟩
  let rect := seed_rect image.cols image.rows
  if too_small rect then
    ([Event.cerr "Error: Bounding box is too small!"], Mat.zeros image.rows image.cols)
  else
    match lib.grabCut image mask rect 5 with
    | none =>
      ([Event.call Prim.grabCut image.rows image.cols, Event.cerr "OpenCV Exception: "],
       Mat.zeros image.rows image.cols)
    | some labels =>
      ([Event.call Prim.grabCut image.rows image.cols],
       Mat.toDouble (fg_mask ⟨image.rows, image.cols, labels⟩))

/-! ## Score aggregator -/

/-- Tuple returned by `compute_foreground_background_probability`. -/
structure Scores where
  fg_prob : Mat ℚ
  foreground_score : ℚ
  background_score : ℚ
  edge_weighted_fg : ℚ

/-- Events of `compute_foreground_background_probability` between the call of
`grabcut_foreground` and the test of line 87. -/
def compute_progress : List Event :=
  [Event.cout "done!",
   Event.cout "Normalizing foreground probability to [0, 1]... ", Event.cout "done!",
   Event.cout "Converting edge map to floating-point... ", Event.cout "done!",
   Event.cout "Converting edge map to floating-point... ", Event.cout "done!",
   Event.cout "Calculating foreground and background scores... ", Event.cout "done!",
   Event.cout "Calculating edge-weighted foreground score... "]

/-- Function `compute_foreground_background_probability` (lines 56 to 93). -/
def compute_foreground_background_probability (lib : Lib) (image_rgb : Mat Color)
    (edges_refined : Mat Nat) : List Event × Option Scores :=
  let seg := grabcut_foreground lib image_rgb
  let fg_prob := Mat.convertTo seg.2 (1 / 255)
  let edges_refined_64F := Mat.divScalar (Mat.toDouble edges_refined) 255
  let foreground_score := Mat.mean fg_prob
  let background_score := 1 - foreground_score
  let head := Event.cout "Computing foreground and background probabilities... " :: seg.1
    ++ compute_progress
  if Mat.sum edges_refined_64F > 0 then
    match Mat.mul lib fg_prob edges_refined_64F with
    | none => (head, none)
    | some prod =>
      (head ++ [Event.cout "done!"],
       some ⟨fg_prob, foreground_score, background_score,
         Mat.sum prod / Mat.sum edges_refined_64F⟩)
  else
    (head ++ [Event.cout "done!"], some ⟨fg_prob, foreground_score, background_score, 0⟩)

/-! ## Driver -/

/-- Lines 107 to 111: the size step of `main`. -/
def size_step (lib : Lib) (image : Mat Color) : List Event × Mat Color :=
  if image.cols < 100 ∨ image.rows < 100 then
    ([Event.cout "Resizing image to avoid failure with GrabCut...",
      Event.call Prim.resize image.rows image.cols],
     ⟨100, 100, lib.resize image 100 100⟩)
  else ([], image)

/-- What a run of the program leaves: the exit status, `none` when an exception ends the
run, and the events in order. -/
structure Run where
  status : Option Int
  events : List Event

/-- Line 117: the grayscale image `cv::cvtColor` makes of `image`. -/
def gray_of (lib : Lib) (image : Mat Color) : Mat Nat :=
  ⟨image.rows, image.cols, lib.cvtColor image⟩

/-- Lines 113 to 132 of `main`, on the image that left the size step. -/
def main_pipeline (lib : Lib) (image : Mat Color) : Run :=
  let gray_image : Mat Nat := gray_of lib image
  let ev1 := [Event.coutSize image.cols image.rows,
    Event.call Prim.cvtColor image.rows image.cols,
    Event.cout "Applying multi-scale Canny edge detection..."]
  match multi_scale_canny lib gray_image default_sigma_list with
  | (ev2, none) => ⟨none, ev1 ++ ev2⟩
  | (ev2, some edges_refined) =>
    let ev3 := [Event.cout "Computing foreground and background probabilities..."]
    match compute_foreground_background_probability lib image edges_refined with
    | (ev4, none) => ⟨none, ev1 ++ ev2 ++ ev3 ++ ev4⟩
    | (ev4, some s) =>
      ⟨some 0, ev1 ++ ev2 ++ ev3 ++ ev4 ++
        [Event.coutScore "Foreground Probability Score: " s.foreground_score,
         Event.coutScore "Background Probability Score: " s.background_score,
         Event.coutScore "Edge-Weighted Foreground Score: " s.edge_weighted_fg]⟩

/-- Function `main` (lines 95 to 133); `path` is `av[1]`. -/
def main (lib : Lib) (ac : Int) (path : String) : Run :=
  if ac ≠ 2 then
    ⟨some (-1), [Event.cout "Usage: ./grabcut_edge_detection <image_path>"]⟩
  else
    let image := lib.imread path
    let ev0 := [Event.call Prim.imread image.rows image.cols]
    if image.empty then
      ⟨some (-1), ev0 ++ [Event.cout "Could not open or find the image!"]⟩
    else
      let sized := size_step lib image
      let rest := main_pipeline lib sized.2
      ⟨rest.status, ev0 ++ sized.1 ++ rest.events⟩

/-- Whether the event is one of the three score lines of `main`. -/
def Event.isScore : Event → Bool
  | Event.coutScore _ _ => true
  | _ => false

/-- Whether the event invokes a primitive of edge extraction or of segmentation. -/
def Event.isStageCall : Event → Bool
  | Event.call Prim.GaussianBlur _ _ => true
  | Event.call Prim.Canny _ _ => true
  | Event.call Prim.morphologyEx _ _ => true
  | Event.call Prim.grabCut _ _ => true
  | _ => false

/-- Size `(rows, cols)` of the array handed to a primitive of grayscale conversion, edge
extraction or segmentation; `none` for every other event. -/
def Event.stageSize : Event → Option (Nat × Nat)
  | Event.call Prim.cvtColor r c => some (r, c)
  | Event.call Prim.GaussianBlur r c => some (r, c)
  | Event.call Prim.Canny r c => some (r, c)
  | Event.call Prim.morphologyEx r c => some (r, c)
  | Event.call Prim.grabCut r c => some (r, c)
  | _ => none

/-! ## Concrete inputs -/

/-- A library for concrete runs: every file holds a 2 by 3 image, the resize and the
blur repeat the pixel at the same place, the colour conversion keeps the first channel,
the edge detector marks the pixels above the high threshold, the segmentation labels the
seed rectangle as probable foreground, and a product of unmatched sizes raises. -/
def sample_lib : Lib where
  imread := fun _ => ⟨2, 3, fun r c => (if r = 0 ∧ c = 0 then 200 else 0, 0, 0)⟩
  resize := fun src _ _ r c => src.px r c
  cvtColor := fun src r c => (src.px r c).1
  GaussianBlur := fun src _ _ => some src.px
  Canny := fun src _ high => some fun r c => if high < src.px r c then 255 else 0
  grabCut := fun _ _ rect _ => some fun r c =>
    if rect.y ≤ (r : Int) ∧ (r : Int) < rect.y + rect.height ∧
        rect.x ≤ (c : Int) ∧ (c : Int) < rect.x + rect.width then GC_PR_FGD else GC_BGD
  mul_unmatched := fun _ _ => none
  cast_out_of_range := fun _ => -2147483648

/-- A colour image of 2 rows and 2 columns. -/
def image_2x2 : Mat Color :=
  ⟨2, 2, fun r c => (if r = 0 ∧ c = 0 then 200 else 0, 0, 0)⟩

/-- A colour image of 1 row and 3 columns. -/
def image_1x3 : Mat Color :=
  ⟨1, 3, fun _ _ => (0, 0, 0)⟩

/-- An edge map of 2 rows and 2 columns with one edge pixel. -/
def edges_2x2 : Mat Nat :=
  ⟨2, 2, fun r c => if r = 0 ∧ c = 0 then 255 else 0⟩

/-- An edge map of 1 row and 3 columns with one edge pixel. -/
def edges_1x3 : Mat Nat :=
  ⟨1, 3, fun _ c => if c = 1 then 255 else 0⟩

/-- A grayscale image of 2 rows and 2 columns with two bright pixels. -/
def gray_bright : Mat Nat :=
  ⟨2, 2, fun r _ => if r = 0 then 200 else 0⟩

/-- A grayscale image of 2 rows and 2 columns with one bright pixel. -/
def gray_dim : Mat Nat :=
  ⟨2, 2, fun r c => if r = 0 ∧ c = 0 then 200 else 0⟩

/-- A colour image of 200 rows and 50 columns. -/
def image_200x50 : Mat Color :=
  ⟨200, 50, fun _ _ => (0, 0, 0)⟩

/-! ## Size step and seed rectangle -/

theorem size_step_small (lib : Lib) (image : Mat Color)
    (h : image.cols < 100 ∨ image.rows < 100) :
    (size_step lib image).2.cols = 100 ∧ (size_step lib image).2.rows = 100 := by
  simp [size_step, h]

theorem size_step_large (lib : Lib) (image : Mat Color)
    (h : ¬ (image.cols < 100 ∨ image.rows < 100)) :
    size_step lib image = ([], image) := by
  simp [size_step, h]

theorem size_step_ge (lib : Lib) (image : Mat Color) :
    100 ≤ (size_step lib image).2.cols ∧ 100 ≤ (size_step lib image).2.rows := by
  by_cases h : image.cols < 100 ∨ image.rows < 100
  · simp [size_step_small lib image h]
  · rw [size_step_large lib image h]
    simp only [not_or, not_lt] at h
    exact h

theorem too_small_iff (cols rows : Nat) :
    too_small (seed_rect cols rows) = true ↔ cols ≤ 1 ∨ rows ≤ 1 := by
  simp only [too_small, seed_rect, Bool.or_eq_true, decide_eq_true_eq]
  omega

theorem grabcut_foreground_events_no_guard (lib : Lib) (image : Mat Color)
    (h : too_small (seed_rect image.cols image.rows) = false) :
    Event.cerr "Error: Bounding box is too small!" ∉ (grabcut_foreground lib image).1 := by
  unfold grabcut_foreground
  simp only [h]
  cases lib.grabCut image ⟨image.rows, image.cols, fun _ _ => GC_BGD⟩
    (seed_rect image.cols image.rows) 5 <;> simp

/-- C9, as the code has it: after the size step of `main` both dimensions are at least
100, and a dimension is smaller than before only when it was above 100 while the other
one was below 100, in which case it is exactly 100. -/
theorem size_step_reduces_only_mixed (lib : Lib) (image : Mat Color) :
    (100 ≤ (size_step lib image).2.cols ∧ 100 ≤ (size_step lib image).2.rows) ∧
    ((size_step lib image).2.cols < image.cols →
      100 < image.cols ∧ image.rows < 100 ∧ (size_step lib image).2.cols = 100) ∧
    ((size_step lib image).2.rows < image.rows →
      100 < image.rows ∧ image.cols < 100 ∧ (size_step lib image).2.rows = 100) := by
  refine ⟨size_step_ge lib image, ?_, ?_⟩
  · intro hlt
    by_cases h : image.cols < 100 ∨ image.rows < 100
    · have hs := size_step_small lib image h
      rw [hs.1] at hlt
      refine ⟨hlt, ?_, hs.1⟩
      omega
    · rw [size_step_large lib image h] at hlt
      exact absurd hlt (lt_irrefl _)
  · intro hlt
    by_cases h : image.cols < 100 ∨ image.rows < 100
    · have hs := size_step_small lib image h
      rw [hs.2] at hlt
      refine ⟨hlt, ?_, hs.2⟩
      omega
    · rw [size_step_large lib image h] at hlt
      exact absurd hlt (lt_irrefl _)

/-- C9 fails as stated: an image of width 50 and height 200 leaves the size step with
height 100, so its height is reduced. -/
theorem size_step_reduces_height_at_50x200 :
    image_200x50.cols = 50 ∧ image_200x50.rows = 200 ∧
    (size_step sample_lib image_200x50).2.rows = 100 ∧
    ¬ (image_200x50.rows ≤ (size_step sample_lib image_200x50).2.rows) := by
  simp [size_step, image_200x50]

/-- C10: the too-small guard of `grabcut_foreground` fires exactly when `cols ≤ 1` or
`rows ≤ 1`; for dimensions of at least 100 it does not fire and the seed rectangle lies
inside the image with a margin of `border = min(cols, rows) / 10` pixels on each of the
four sides; and on every image that left the size step of `main` the guard is not taken,
so `grabcut_foreground` does not write the guard's message. -/
theorem seed_rect_guard (cols rows : Nat) :
    (too_small (seed_rect cols rows) = true ↔ cols ≤ 1 ∨ rows ≤ 1) ∧
    (100 ≤ cols → 100 ≤ rows →
      too_small (seed_rect cols rows) = false ∧
      (seed_rect cols rows).x = Min.min (cols : Int) (rows : Int) / 10 ∧
      (seed_rect cols rows).y = Min.min (cols : Int) (rows : Int) / 10 ∧
      0 ≤ (seed_rect cols rows).x ∧ 0 ≤ (seed_rect cols rows).y ∧
      (seed_rect cols rows).x + (seed_rect cols rows).width ≤ (cols : Int) ∧
      (seed_rect cols rows).y + (seed_rect cols rows).height ≤ (rows : Int) ∧
      (cols : Int) - ((seed_rect cols rows).x + (seed_rect cols rows).width)
        = Min.min (cols : Int) (rows : Int) / 10 ∧
      (rows : Int) - ((seed_rect cols rows).y + (seed_rect cols rows).height)
        = Min.min (cols : Int) (rows : Int) / 10) ∧
    (∀ (lib : Lib) (image : Mat Color),
      too_small (seed_rect (size_step lib image).2.cols (size_step lib image).2.rows) = false ∧
      Event.cerr "Error: Bounding box is too small!" ∉
        (grabcut_foreground lib (size_step lib image).2).1) := by
  refine ⟨too_small_iff cols rows, ?_, ?_⟩
  · intro hc hr
    have hg : too_small (seed_rect cols rows) = false := by
      rw [← Bool.not_eq_true, too_small_iff]
      omega
    refine ⟨hg, rfl, rfl, ?_⟩
    simp only [seed_rect]
    omega
  · intro lib image
    have hge := size_step_ge lib image
    have hg : too_small (seed_rect (size_step lib image).2.cols
        (size_step lib image).2.rows) = false := by
      rw [← Bool.not_eq_true, too_small_iff]
      omega
    exact ⟨hg, grabcut_foreground_events_no_guard lib _ hg⟩

/-! ## Kernel size -/

theorem round_half_away_int (k : Int) (hk : 0 ≤ k) : round_half_away (k : ℚ) = k := by
  have h0 : (0 : ℚ) ≤ (k : ℚ) := by exact_mod_cast hk
  simp only [round_half_away, h0, if_true]
  rw [Int.floor_eq_iff]
  constructor <;> linarith

theorem kernel_size_ge_three (lib : Lib) (sigma : ℚ) : 3 ≤ kernel_size lib sigma := by
  unfold kernel_size
  exact le_max_left _ _

theorem kernel_size_nat (lib : Lib) (n : Nat) (hpos : 0 < n) (hfit : n ≤ 1073741823) :
    kernel_size lib (n : ℚ) = 2 * (n : Int) + 1 := by
  have hx : (n : ℚ) * 2 + 1 = ((2 * (n : Int) + 1 : Int) : ℚ) := by push_cast; ring
  have hr : round_half_away ((n : ℚ) * 2 + 1) = 2 * (n : Int) + 1 := by
    rw [hx]; exact round_half_away_int _ (by omega)
  unfold kernel_size static_cast_int
  rw [hr]
  have hrange : (-2147483648 : Int) ≤ 2 * (n : Int) + 1 ∧ 2 * (n : Int) + 1 ≤ 2147483647 := by
    omega
  rw [if_pos hrange]
  exact max_eq_right (by omega)

/-- Kernel size on whole strengths: for every blur strength the kernel size is at least 3;
when the strength is a positive whole number `n` with `2 * n + 1` in the range of `int`
the size is `2 * n + 1`, which is odd; and the default list gives the sizes 3, 5 and 7. -/
theorem kernel_size_odd_on_whole_sigma (lib : Lib) (sigma : ℚ) :
    3 ≤ kernel_size lib sigma ∧
    (∀ n : Nat, 0 < n → n ≤ 1073741823 → sigma = (n : ℚ) →
      kernel_size lib sigma = 2 * (n : Int) + 1 ∧ kernel_size lib sigma % 2 = 1) ∧
    List.map (kernel_size lib) default_sigma_list = [3, 5, 7] := by
  refine ⟨kernel_size_ge_three lib sigma, ?_, ?_⟩
  · intro n hpos hfit hs
    subst hs
    rw [kernel_size_nat lib n hpos hfit]
    exact ⟨rfl, by omega⟩
  · have h1 := kernel_size_nat lib 1 (by decide) (by decide)
    have h2 := kernel_size_nat lib 2 (by decide) (by decide)
    have h3 := kernel_size_nat lib 3 (by decide) (by decide)
    simp only [Nat.cast_one, Nat.cast_ofNat] at h1 h2 h3
    simp only [default_sigma_list, List.map_cons, List.map_nil, h1, h2, h3]
    norm_num

theorem kernel_size_three_halves (lib : Lib) : kernel_size lib (3 / 2) = 4 := by
  have hx : (3 / 2 : ℚ) * 2 + 1 = ((4 : Int) : ℚ) := by norm_num
  have hr : round_half_away ((3 / 2 : ℚ) * 2 + 1) = 4 := by
    rw [hx]; exact round_half_away_int 4 (by decide)
  unfold kernel_size static_cast_int
  rw [hr, if_pos (by decide)]
  decide

/-- C8 at the failing input: for the positive blur strength 1.5 line 11 computes
`round(2 * 1.5 + 1) = 4`, so with every library the kernel size is 4, which is even, where
the claim says odd; and this 4 is the size handed to `cv::GaussianBlur`: when the blur
raises on it, `multi_scale_canny` on the sigma list `{1.5}` returns no edge map. -/
theorem kernel_size_even_at_three_halves :
    (0 : ℚ) < 3 / 2 ∧
    ∀ lib : Lib, kernel_size lib (3 / 2) = 4 ∧ kernel_size lib (3 / 2) % 2 = 0 ∧
      ∀ image : Mat Nat, lib.GaussianBlur image 4 (3 / 2) = none →
        (multi_scale_canny lib image [3 / 2]).2 = none := by
  refine ⟨by norm_num, ?_⟩
  intro lib
  have hk := kernel_size_three_halves lib
  refine ⟨hk, ?_, ?_⟩
  · rw [hk]
    decide
  · intro image h
    have hs : scale_edges lib image (3 / 2) =
        ([Event.call Prim.GaussianBlur image.rows image.cols], none) := by
      unfold scale_edges
      rw [hk, h]
    simp [multi_scale_canny, canny_loop, hs]

/-! ## Monotonicity of the edge extractor -/

theorem mem_window_lt {n i x : Nat} (hi : i < n) (hx : x ∈ window n i) : x < n := by
  unfold window at hx
  simp only [List.mem_append, List.mem_singleton] at hx
  rcases hx with (hx | hx) | hx
  · split at hx
    · simp only [List.mem_singleton] at hx
      omega
    · simp at hx
  · omega
  · split at hx
    · simp only [List.mem_singleton] at hx
      omega
    · simp at hx

theorem mem_neighbours_lt {rows cols r c : Nat} {q : Nat × Nat} (hr : r < rows)
    (hc : c < cols) (hq : q ∈ neighbours rows cols r c) : q.1 < rows ∧ q.2 < cols := by
  unfold neighbours at hq
  simp only [List.mem_flatMap, List.mem_map] at hq
  obtain ⟨r1, hr1, c1, hc1, rfl⟩ := hq
  exact ⟨mem_window_lt hr hr1, mem_window_lt hc hc1⟩

theorem foldl_max_mono (l : List (Nat × Nat)) (f g : Nat × Nat → Nat) :
    ∀ x y : Nat, x ≤ y → (∀ q ∈ l, f q ≤ g q) →
      (l.map f).foldl Nat.max x ≤ (l.map g).foldl Nat.max y := by
  induction l with
  | nil => intro x y hxy _; simpa using hxy
  | cons a t ih =>
    intro x y hxy h
    simp only [List.map_cons, List.foldl_cons]
    apply ih
    · exact max_le_max hxy (h a (List.mem_cons_self a t))
    · intro q hq
      exact h q (List.mem_cons_of_mem a hq)

theorem foldl_min_mono (l : List (Nat × Nat)) (f g : Nat × Nat → Nat) :
    ∀ x y : Nat, x ≤ y → (∀ q ∈ l, f q ≤ g q) →
      (l.map f).foldl Nat.min x ≤ (l.map g).foldl Nat.min y := by
  induction l with
  | nil => intro x y hxy _; simpa using hxy
  | cons a t ih =>
    intro x y hxy h
    simp only [List.map_cons, List.foldl_cons]
    apply ih
    · exact min_le_min hxy (h a (List.mem_cons_self a t))
    · intro q hq
      exact h q (List.mem_cons_of_mem a hq)

theorem dilate_mono {a b : Mat Nat} (h : Mat.le a b) : Mat.le (dilate a) (dilate b) := by
  obtain ⟨hr, hc, hpx⟩ := h
  refine ⟨hr, hc, ?_⟩
  intro r hrl c hcl
  simp only [dilate] at hrl hcl ⊢
  rw [← hr, ← hc]
  apply foldl_max_mono
  · exact hpx r hrl c hcl
  · intro q hq
    have hlt := mem_neighbours_lt hrl hcl hq
    exact hpx q.1 hlt.1 q.2 hlt.2

theorem erode_mono {a b : Mat Nat} (h : Mat.le a b) : Mat.le (erode a) (erode b) := by
  obtain ⟨hr, hc, hpx⟩ := h
  refine ⟨hr, hc, ?_⟩
  intro r hrl c hcl
  simp only [erode] at hrl hcl ⊢
  rw [← hr, ← hc]
  apply foldl_min_mono
  · exact hpx r hrl c hcl
  · intro q hq
    have hlt := mem_neighbours_lt hrl hcl hq
    exact hpx q.1 hlt.1 q.2 hlt.2

theorem morph_close_mono {a b : Mat Nat} (h : Mat.le a b) :
    Mat.le (morph_close a) (morph_close b) :=
  erode_mono (dilate_mono h)

theorem max_mono {a b e f : Mat Nat} (hab : Mat.le a b) (hef : Mat.le e f)
    (hre : e.rows = a.rows) (hce : e.cols = a.cols) :
    Mat.le (Mat.max a e) (Mat.max b f) := by
  obtain ⟨hr, hc, hpx⟩ := hab
  obtain ⟨hr2, hc2, hpx2⟩ := hef
  refine ⟨hr, hc, ?_⟩
  intro r hrl c hcl
  simp only [Mat.max] at hrl hcl ⊢
  exact max_le_max (hpx r hrl c hcl) (hpx2 r (by omega) c (by omega))

theorem scale_edges_dims {lib : Lib} {image e : Mat Nat} {sigma : ℚ}
    (h : (scale_edges lib image sigma).2 = some e) :
    e.rows = image.rows ∧ e.cols = image.cols := by
  unfold scale_edges at h
  split at h
  · simp at h
  · dsimp only at h
    split at h
    · simp at h
    · simp only [Option.some.injEq] at h
      subst h
      exact ⟨rfl, rfl⟩

theorem canny_loop_cons_some {lib : Lib} {image edges : Mat Nat} {sigma : ℚ}
    (rest : List ℚ) (acc : Mat Nat) (h : (scale_edges lib image sigma).2 = some edges) :
    (canny_loop lib image (sigma :: rest) acc).2
      = (canny_loop lib image rest (Mat.max acc edges)).2 := by
  rw [canny_loop]
  split
  · next ev heq => rw [heq] at h; simp at h
  · next ev e heq =>
    rw [heq] at h
    simp only [Option.some.injEq] at h
    subst h
    rfl

theorem canny_loop_mono (lib : Lib) (A B : Mat Nat) (sigma_list : List ℚ) :
    ∀ accA accB : Mat Nat, Mat.le accB accA → accB.rows = B.rows → accB.cols = B.cols →
      (∀ sigma ∈ sigma_list, ∃ ea eb, (scale_edges lib A sigma).2 = some ea ∧
        (scale_edges lib B sigma).2 = some eb ∧ Mat.le eb ea) →
      ∃ ra rb, (canny_loop lib A sigma_list accA).2 = some ra ∧
        (canny_loop lib B sigma_list accB).2 = some rb ∧ Mat.le rb ra := by
  induction sigma_list with
  | nil =>
    intro accA accB hle _ _ _
    exact ⟨accA, accB, rfl, rfl, hle⟩
  | cons sigma rest ih =>
    intro accA accB hle hrB hcB h
    obtain ⟨ea, eb, hea, heb, hee⟩ := h sigma (List.mem_cons_self sigma rest)
    rw [canny_loop_cons_some rest accA hea, canny_loop_cons_some rest accB heb]
    have hdB := scale_edges_dims heb
    apply ih
    · exact max_mono hle hee (by rw [hdB.1, hrB]) (by rw [hdB.2, hcB])
    · exact hrB
    · exact hcB
    · intro s hs
      exact h s (List.mem_cons_of_mem sigma hs)

theorem multi_scale_canny_of_loop {lib : Lib} {image combined : Mat Nat}
    {sigma_list : List ℚ}
    (h : (canny_loop lib image sigma_list (Mat.zeros image.rows image.cols)).2
      = some combined) :
    (multi_scale_canny lib image sigma_list).2 = some (morph_close combined) := by
  unfold multi_scale_canny
  simp only
  split
  · next ev heq => rw [heq] at h; simp at h
  · next ev e heq =>
    rw [heq] at h
    simp only [Option.some.injEq] at h
    subst h
    rfl

/-- C7: for any sigma list and any two images `A` and `B` of equal dimensions such that at
every sigma of the list the per-scale edge map of `B` is pixel-wise at most the one of `A`,
`multi_scale_canny` returns a combined map for both and the map of `B` is pixel-wise at
most the map of `A`. -/
theorem multi_scale_canny_monotone (lib : Lib) (A B : Mat Nat) (sigma_list : List ℚ)
    (hr : A.rows = B.rows) (hc : A.cols = B.cols)
    (h : ∀ sigma ∈ sigma_list, ∃ ea eb, (scale_edges lib A sigma).2 = some ea ∧
      (scale_edges lib B sigma).2 = some eb ∧ Mat.le eb ea) :
    ∃ ra rb, (multi_scale_canny lib A sigma_list).2 = some ra ∧
      (multi_scale_canny lib B sigma_list).2 = some rb ∧ Mat.le rb ra := by
  have hzero : Mat.le (Mat.zeros B.rows B.cols : Mat Nat) (Mat.zeros A.rows A.cols) := by
    refine ⟨hr.symm, hc.symm, ?_⟩
    intro r _ c _
    exact le_refl _
  obtain ⟨ca, cb, hca, hcb, hle⟩ :=
    canny_loop_mono lib A B sigma_list _ _ hzero rfl rfl h
  exact ⟨morph_close ca, morph_close cb, multi_scale_canny_of_loop hca,
    multi_scale_canny_of_loop hcb, morph_close_mono hle⟩

/-- C7 at a concrete input: with the sample library, the image with two bright pixels
and the image with one of them, on the default sigma list. -/
theorem multi_scale_canny_monotone_witness :
    ∃ ra rb, (multi_scale_canny sample_lib gray_bright default_sigma_list).2 = some ra ∧
      (multi_scale_canny sample_lib gray_dim default_sigma_list).2 = some rb ∧
      Mat.le rb ra := by
  refine multi_scale_canny_monotone sample_lib gray_bright gray_dim default_sigma_list
    rfl rfl ?_
  intro sigma _
  refine ⟨⟨2, 2, fun r _ => if 150 < (if r = 0 then 200 else 0) then 255 else 0⟩,
    ⟨2, 2, fun r c => if 150 < (if r = 0 ∧ c = 0 then 200 else 0) then 255 else 0⟩,
    rfl, rfl, ?_⟩
  decide

/-! ## Scores -/

theorem sum_nonneg_of_px {m : Mat ℚ}
    (h : ∀ r, r < m.rows → ∀ c, c < m.cols → 0 ≤ m.px r c) : 0 ≤ Mat.sum m := by
  unfold Mat.sum
  apply Finset.sum_nonneg
  intro r hr
  apply Finset.sum_nonneg
  intro c hc
  exact h r (Finset.mem_range.mp hr) c (Finset.mem_range.mp hc)

theorem sum_le_of_px {m n : Mat ℚ} (hr : m.rows = n.rows) (hc : m.cols = n.cols)
    (h : ∀ r, r < m.rows → ∀ c, c < m.cols → m.px r c ≤ n.px r c) :
    Mat.sum m ≤ Mat.sum n := by
  unfold Mat.sum
  rw [← hr, ← hc]
  apply Finset.sum_le_sum
  intro r hr1
  apply Finset.sum_le_sum
  intro c hc1
  exact h r (Finset.mem_range.mp hr1) c (Finset.mem_range.mp hc1)

theorem sum_eq_zero_iff_of_px {m : Mat ℚ}
    (h : ∀ r, r < m.rows → ∀ c, c < m.cols → 0 ≤ m.px r c) :
    Mat.sum m = 0 ↔ ∀ r, r < m.rows → ∀ c, c < m.cols → m.px r c = 0 := by
  unfold Mat.sum
  rw [Finset.sum_eq_zero_iff_of_nonneg]
  · constructor
    · intro h0 r hr c hc
      have h1 := h0 r (Finset.mem_range.mpr hr)
      rw [Finset.sum_eq_zero_iff_of_nonneg] at h1
      · exact h1 c (Finset.mem_range.mpr hc)
      · intro c1 hc1
        exact h r hr c1 (Finset.mem_range.mp hc1)
    · intro h0 r hr
      apply Finset.sum_eq_zero
      intro c hc
      exact h0 r (Finset.mem_range.mp hr) c (Finset.mem_range.mp hc)
  · intro r hr
    apply Finset.sum_nonneg
    intro c hc
    exact h r (Finset.mem_range.mp hr) c (Finset.mem_range.mp hc)

theorem sum_const_one (rows cols : Nat) :
    Mat.sum (⟨rows, cols, fun _ _ => 1⟩ : Mat ℚ) = ((rows * cols : Nat) : ℚ) := by
  simp [Mat.sum]

theorem mean_unit_of_px {m : Mat ℚ}
    (h0 : ∀ r, r < m.rows → ∀ c, c < m.cols → 0 ≤ m.px r c)
    (h1 : ∀ r, r < m.rows → ∀ c, c < m.cols → m.px r c ≤ 1) :
    0 ≤ Mat.mean m ∧ Mat.mean m ≤ 1 := by
  unfold Mat.mean
  split
  · exact ⟨le_refl _, zero_le_one⟩
  · next hn =>
    have hpos : (0 : ℚ) < ((m.rows * m.cols : Nat) : ℚ) := by
      exact_mod_cast Nat.pos_of_ne_zero hn
    have hs0 := sum_nonneg_of_px h0
    have hs1 : Mat.sum m ≤ ((m.rows * m.cols : Nat) : ℚ) := by
      rw [← sum_const_one]
      exact sum_le_of_px rfl rfl h1
    rw [mul_one_div]
    exact ⟨div_nonneg hs0 (le_of_lt hpos), (div_le_one hpos).mpr hs1⟩

theorem grabcut_foreground_dims (lib : Lib) (image : Mat Color) :
    (grabcut_foreground lib image).2.rows = image.rows ∧
    (grabcut_foreground lib image).2.cols = image.cols := by
  unfold grabcut_foreground
  dsimp only
  split
  · exact ⟨rfl, rfl⟩
  · split <;> exact ⟨rfl, rfl⟩

theorem fg_mask_px (mask : Mat Nat) (r c : Nat) :
    (fg_mask mask).px r c = 0 ∨ (fg_mask mask).px r c = 255 := by
  simp only [fg_mask, cmp_eq]
  split <;> split <;> decide

theorem grabcut_foreground_px (lib : Lib) (image : Mat Color) (r c : Nat) :
    (grabcut_foreground lib image).2.px r c = 0 ∨
    (grabcut_foreground lib image).2.px r c = 255 := by
  unfold grabcut_foreground
  dsimp only
  split
  · left; rfl
  · split
    · left; rfl
    · next labels _ =>
      rcases fg_mask_px ⟨image.rows, image.cols, labels⟩ r c with h | h
      · left; simp [Mat.toDouble, h]
      · right; simp [Mat.toDouble, h]

theorem fg_prob_px (lib : Lib) (image : Mat Color) (r c : Nat) :
    (Mat.convertTo (grabcut_foreground lib image).2 (1 / 255)).px r c = 0 ∨
    (Mat.convertTo (grabcut_foreground lib image).2 (1 / 255)).px r c = 1 := by
  rcases grabcut_foreground_px lib image r c with h | h
  · left; simp [Mat.convertTo, h]
  · right; simp [Mat.convertTo, h]

theorem fg_prob_mean_unit (lib : Lib) (image : Mat Color) :
    0 ≤ Mat.mean (Mat.convertTo (grabcut_foreground lib image).2 (1 / 255)) ∧
    Mat.mean (Mat.convertTo (grabcut_foreground lib image).2 (1 / 255)) ≤ 1 := by
  apply mean_unit_of_px
  · intro r _ c _
    rcases fg_prob_px lib image r c with h | h
    · exact le_of_eq h.symm
    · rw [h]; exact zero_le_one
  · intro r _ c _
    rcases fg_prob_px lib image r c with h | h
    · rw [h]; exact zero_le_one
    · exact le_of_eq h

theorem compute_scores {lib : Lib} {image : Mat Color} {edges : Mat Nat} {s : Scores}
    (h : (compute_foreground_background_probability lib image edges).2 = some s) :
    s.fg_prob = Mat.convertTo (grabcut_foreground lib image).2 (1 / 255) ∧
    s.foreground_score = Mat.mean (Mat.convertTo (grabcut_foreground lib image).2 (1 / 255)) ∧
    s.background_score = 1 - s.foreground_score := by
  unfold compute_foreground_background_probability at h
  dsimp only at h
  split at h
  · split at h
    · simp at h
    · simp only [Option.some.injEq] at h
      subst h
      exact ⟨rfl, rfl, rfl⟩
  · simp only [Option.some.injEq] at h
    subst h
    exact ⟨rfl, rfl, rfl⟩

theorem compute_same_size (lib : Lib) (image : Mat Color) (edges : Mat Nat)
    (hr : edges.rows = image.rows) (hc : edges.cols = image.cols) :
    (compute_foreground_background_probability lib image edges).2 =
      some ⟨Mat.convertTo (grabcut_foreground lib image).2 (1 / 255),
        Mat.mean (Mat.convertTo (grabcut_foreground lib image).2 (1 / 255)),
        1 - Mat.mean (Mat.convertTo (grabcut_foreground lib image).2 (1 / 255)),
        if Mat.sum (Mat.divScalar (Mat.toDouble edges) 255) > 0 then
          Mat.sum ⟨image.rows, image.cols, fun r c =>
            (Mat.convertTo (grabcut_foreground lib image).2 (1 / 255)).px r c *
              (Mat.divScalar (Mat.toDouble edges) 255).px r c⟩ /
          Mat.sum (Mat.divScalar (Mat.toDouble edges) 255)
        else 0⟩ := by
  have hd := grabcut_foreground_dims lib image
  have hm : Mat.mul lib (Mat.convertTo (grabcut_foreground lib image).2 (1 / 255))
      (Mat.divScalar (Mat.toDouble edges) 255) =
      some ⟨image.rows, image.cols, fun r c =>
        (Mat.convertTo (grabcut_foreground lib image).2 (1 / 255)).px r c *
          (Mat.divScalar (Mat.toDouble edges) 255).px r c⟩ := by
    unfold Mat.mul
    rw [if_pos]
    · simp only [Mat.convertTo, hd.1, hd.2]
    · simp only [Mat.convertTo, Mat.divScalar, Mat.toDouble, hd.1, hd.2, hr, hc, and_self]
  unfold compute_foreground_background_probability
  dsimp only
  split
  · rw [hm]
  · rfl

theorem compute_no_edges (lib : Lib) (image : Mat Color) (edges : Mat Nat)
    (h : ¬ Mat.sum (Mat.divScalar (Mat.toDouble edges) 255) > 0) :
    (compute_foreground_background_probability lib image edges).2 =
      some ⟨Mat.convertTo (grabcut_foreground lib image).2 (1 / 255),
        Mat.mean (Mat.convertTo (grabcut_foreground lib image).2 (1 / 255)),
        1 - Mat.mean (Mat.convertTo (grabcut_foreground lib image).2 (1 / 255)), 0⟩ := by
  unfold compute_foreground_background_probability
  dsimp only
  rw [if_neg h]

theorem edges_sum_pos_iff (edges : Mat Nat) :
    Mat.sum (Mat.divScalar (Mat.toDouble edges) 255) > 0 ↔ ¬ Mat.allZero edges := by
  have hnn : ∀ r, r < (Mat.divScalar (Mat.toDouble edges) 255).rows →
      ∀ c, c < (Mat.divScalar (Mat.toDouble edges) 255).cols →
      0 ≤ (Mat.divScalar (Mat.toDouble edges) 255).px r c := by
    intro r _ c _
    simp only [Mat.divScalar, Mat.toDouble]
    positivity
  have hz := sum_eq_zero_iff_of_px hnn
  have h0 := sum_nonneg_of_px hnn
  have hzero : Mat.sum (Mat.divScalar (Mat.toDouble edges) 255) = 0 ↔ Mat.allZero edges := by
    rw [hz]
    unfold Mat.allZero
    simp only [Mat.divScalar, Mat.toDouble]
    constructor
    · intro h r hr c hc
      have := h r hr c hc
      simpa using this
    · intro h r hr c hc
      simp [h r hr c hc]
  rw [← hzero]
  constructor
  · intro h; exact ne_of_gt h
  · intro h; exact lt_of_le_of_ne h0 (Ne.symm h)

/-- C1: for every image with at least one pixel, every library (hence every outcome of
`grabcut_foreground`: the too-small return, the caught exception, any label mask) and every
edge map, the call returns when the edge map has the size of the image, and whenever it
returns, `foreground_score` and `background_score` lie in [0, 1], every entry of the
normalised foreground grid is 0 or 1, `foreground_score` is the mean of that grid and
`background_score` is 1 minus it. -/
theorem scores_in_unit_interval (lib : Lib) (image : Mat Color) (edges : Mat Nat)
    (hr : 0 < image.rows) (hc : 0 < image.cols) :
    (edges.rows = image.rows → edges.cols = image.cols →
      ∃ s, (compute_foreground_background_probability lib image edges).2 = some s) ∧
    ∀ s, (compute_foreground_background_probability lib image edges).2 = some s →
      (0 ≤ s.foreground_score ∧ s.foreground_score ≤ 1) ∧
      (0 ≤ s.background_score ∧ s.background_score ≤ 1) ∧
      (∀ r c, s.fg_prob.px r c = 0 ∨ s.fg_prob.px r c = 1) ∧
      s.foreground_score =
        (∑ r ∈ Finset.range image.rows, ∑ c ∈ Finset.range image.cols, s.fg_prob.px r c) /
          ((image.rows * image.cols : Nat) : ℚ) ∧
      s.background_score = 1 - s.foreground_score := by
  constructor
  · intro her hec
    exact ⟨_, compute_same_size lib image edges her hec⟩
  · intro s hs
    obtain ⟨hgrid, hfg, hbg⟩ := compute_scores hs
    have hu := fg_prob_mean_unit lib image
    rw [← hfg] at hu
    have hd := grabcut_foreground_dims lib image
    refine ⟨hu, ?_, ?_, ?_, hbg⟩
    · rw [hbg]
      constructor <;> linarith [hu.1, hu.2]
    · intro r c
      rw [hgrid]
      exact fg_prob_px lib image r c
    · rw [hfg, ← hgrid]
      have hrows : s.fg_prob.rows = image.rows := by rw [hgrid]; exact hd.1
      have hcols : s.fg_prob.cols = image.cols := by rw [hgrid]; exact hd.2
      have hn : image.rows * image.cols ≠ 0 := Nat.mul_ne_zero (by omega) (by omega)
      unfold Mat.mean Mat.sum
      rw [hrows, hcols, if_neg hn, mul_one_div]

/-- C1 at a concrete input: the sample library on the 2 by 2 image and edge map. -/
theorem scores_in_unit_interval_witness :
    0 < image_2x2.rows ∧ 0 < image_2x2.cols ∧
    ∃ s, (compute_foreground_background_probability sample_lib image_2x2 edges_2x2).2
        = some s ∧
      (0 ≤ s.foreground_score ∧ s.foreground_score ≤ 1) ∧
      (0 ≤ s.background_score ∧ s.background_score ≤ 1) := by
  have h := scores_in_unit_interval sample_lib image_2x2 edges_2x2 (by decide) (by decide)
  obtain ⟨s, hs⟩ := h.1 rfl rfl
  have hp := h.2 s hs
  exact ⟨by decide, by decide, s, hs, hp.1, hp.2.1⟩

/-- C2: for every image and every edge map, the call returns when the edge map has the
size of the image, and whenever it returns, `background_score` equals
`1 - foreground_score` and the two scores add up to exactly 1. -/
theorem background_score_is_complement (lib : Lib) (image : Mat Color) (edges : Mat Nat) :
    (edges.rows = image.rows → edges.cols = image.cols →
      ∃ s, (compute_foreground_background_probability lib image edges).2 = some s) ∧
    ∀ s, (compute_foreground_background_probability lib image edges).2 = some s →
      s.background_score = 1 - s.foreground_score ∧
      s.foreground_score + s.background_score = 1 := by
  constructor
  · intro her hec
    exact ⟨_, compute_same_size lib image edges her hec⟩
  · intro s hs
    obtain ⟨_, _, hbg⟩ := compute_scores hs
    exact ⟨hbg, by rw [hbg]; ring⟩

/-- C3: for every image, every library and every edge map of the dimensions of the grid
`grabcut_foreground` produced, the call returns, and the grid it returns is that grid
scaled by 1/255; `edge_weighted_fg` is 0 when every edge pixel is 0; otherwise the sum of
the normalised edge map, the denominator of line 88, is positive, `edge_weighted_fg` is
the sum over all pixels of (pixel of the grid of `grabcut_foreground` times 1/255) times
(edge pixel over 255), divided by that sum, and it lies in [0, 1]. -/
theorem edge_weighted_fg_spec (lib : Lib) (image : Mat Color) (edges : Mat Nat)
    (hr : edges.rows = (grabcut_foreground lib image).2.rows)
    (hc : edges.cols = (grabcut_foreground lib image).2.cols) :
    ∃ s, (compute_foreground_background_probability lib image edges).2 = some s ∧
      s.fg_prob = Mat.convertTo (grabcut_foreground lib image).2 (1 / 255) ∧
      (Mat.allZero edges → s.edge_weighted_fg = 0) ∧
      (¬ Mat.allZero edges →
        0 < (∑ r ∈ Finset.range edges.rows, ∑ c ∈ Finset.range edges.cols,
          (edges.px r c : ℚ) / 255) ∧
        s.edge_weighted_fg =
          (∑ r ∈ Finset.range (grabcut_foreground lib image).2.rows,
            ∑ c ∈ Finset.range (grabcut_foreground lib image).2.cols,
              (grabcut_foreground lib image).2.px r c * (1 / 255) *
                ((edges.px r c : ℚ) / 255)) /
          (∑ r ∈ Finset.range edges.rows, ∑ c ∈ Finset.range edges.cols,
            (edges.px r c : ℚ) / 255) ∧
        0 ≤ s.edge_weighted_fg ∧ s.edge_weighted_fg ≤ 1) := by
  have hd := grabcut_foreground_dims lib image
  have her : edges.rows = image.rows := by rw [hr, hd.1]
  have hec : edges.cols = image.cols := by rw [hc, hd.2]
  refine ⟨_, compute_same_size lib image edges her hec, rfl, ?_, ?_⟩
  · intro hz
    have hn : ¬ Mat.sum (Mat.divScalar (Mat.toDouble edges) 255) > 0 := by
      rw [edges_sum_pos_iff]
      exact not_not.mpr hz
    simp only [if_neg hn]
  · intro hnz
    have hpos : Mat.sum (Mat.divScalar (Mat.toDouble edges) 255) > 0 :=
      (edges_sum_pos_iff edges).mpr hnz
    simp only [if_pos hpos]
    have hnum0 : 0 ≤ Mat.sum ⟨image.rows, image.cols, fun r c =>
        (Mat.convertTo (grabcut_foreground lib image).2 (1 / 255)).px r c *
          (Mat.divScalar (Mat.toDouble edges) 255).px r c⟩ := by
      apply sum_nonneg_of_px
      intro r _ c _
      have he : 0 ≤ (Mat.divScalar (Mat.toDouble edges) 255).px r c := by
        simp only [Mat.divScalar, Mat.toDouble]
        positivity
      rcases fg_prob_px lib image r c with h | h <;> simp only [h]
      · simp
      · simpa using he
    have hnum1 : Mat.sum ⟨image.rows, image.cols, fun r c =>
        (Mat.convertTo (grabcut_foreground lib image).2 (1 / 255)).px r c *
          (Mat.divScalar (Mat.toDouble edges) 255).px r c⟩ ≤
        Mat.sum (Mat.divScalar (Mat.toDouble edges) 255) := by
      apply sum_le_of_px
      · exact her.symm
      · exact hec.symm
      · intro r _ c _
        have he : 0 ≤ (Mat.divScalar (Mat.toDouble edges) 255).px r c := by
          simp only [Mat.divScalar, Mat.toDouble]
          positivity
        rcases fg_prob_px lib image r c with h | h <;> simp only [h]
        · simpa using he
        · simp
    refine ⟨hpos, ?_, div_nonneg hnum0 (le_of_lt hpos), (div_le_one hpos).mpr hnum1⟩
    simp only [Mat.sum, Mat.divScalar, Mat.toDouble, Mat.convertTo, hd.1, hd.2]

/-- C3 at a concrete input: the sample library on the 2 by 2 image, which it segments as
foreground throughout, and the 2 by 2 edge map with one edge pixel; the edge-weighted
score is 1. -/
theorem edge_weighted_fg_spec_witness :
    edges_2x2.rows = (grabcut_foreground sample_lib image_2x2).2.rows ∧
    edges_2x2.cols = (grabcut_foreground sample_lib image_2x2).2.cols ∧
    ¬ Mat.allZero edges_2x2 ∧
    ∃ s, (compute_foreground_background_probability sample_lib image_2x2 edges_2x2).2
        = some s ∧
      s.edge_weighted_fg = 1 := by
  have hr : edges_2x2.rows = (grabcut_foreground sample_lib image_2x2).2.rows :=
    (grabcut_foreground_dims sample_lib image_2x2).1.symm
  have hc : edges_2x2.cols = (grabcut_foreground sample_lib image_2x2).2.cols :=
    (grabcut_foreground_dims sample_lib image_2x2).2.symm
  have hnz : ¬ Mat.allZero edges_2x2 := by decide
  obtain ⟨s, hs, _, _, h2⟩ := edge_weighted_fg_spec sample_lib image_2x2 edges_2x2 hr hc
  refine ⟨hr, hc, hnz, s, hs, ?_⟩
  rw [(h2 hnz).2.1]
  simp [grabcut_foreground, too_small, sample_lib, image_2x2, edges_2x2, seed_rect, fg_mask,
    cmp_eq, Mat.toDouble, GC_FGD, GC_PR_FGD, GC_BGD, Finset.sum_range_succ]

theorem grabcut_foreground_degenerate (lib : Lib) (image : Mat Color)
    (h : too_small (seed_rect image.cols image.rows) = true ∨
      lib.grabCut image ⟨image.rows, image.cols, fun _ _ => GC_BGD⟩
        (seed_rect image.cols image.rows) 5 = none) :
    (grabcut_foreground lib image).2 = Mat.zeros image.rows image.cols := by
  unfold grabcut_foreground
  dsimp only
  split
  · rfl
  · rcases h with h | h
    · next hn => exact absurd h hn
    · rw [h]

theorem mean_zeros (rows cols : Nat) :
    Mat.mean (Mat.convertTo (Mat.zeros rows cols) (1 / 255)) = 0 := by
  unfold Mat.mean
  split
  · rfl
  · simp [Mat.sum, Mat.convertTo, Mat.zeros]

/-- C4: when the seed rectangle has width at most 1 or height at most 1, or the
segmentation primitive raises, `grabcut_foreground` returns the all-zero mask of the
image's dimensions, and for every edge map (an edge map has the dimensions of the image;
an entirely zero array of any size is covered as well) the aggregator returns with
`foreground_score = 0`, `background_score = 1` and `edge_weighted_fg = 0`; whenever the
aggregator returns at all, the first two scores are 0 and 1. -/
theorem degenerate_seed_gives_background (lib : Lib) (image : Mat Color)
    (h : too_small (seed_rect image.cols image.rows) = true ∨
      lib.grabCut image ⟨image.rows, image.cols, fun _ _ => GC_BGD⟩
        (seed_rect image.cols image.rows) 5 = none) :
    (grabcut_foreground lib image).2 = Mat.zeros image.rows image.cols ∧
    ∀ edges : Mat Nat,
      ((edges.rows = image.rows ∧ edges.cols = image.cols) ∨ Mat.allZero edges →
        ∃ s, (compute_foreground_background_probability lib image edges).2 = some s ∧
          s.foreground_score = 0 ∧ s.background_score = 1 ∧ s.edge_weighted_fg = 0) ∧
      (∀ s, (compute_foreground_background_probability lib image edges).2 = some s →
        s.foreground_score = 0 ∧ s.background_score = 1) := by
  have hz := grabcut_foreground_degenerate lib image h
  refine ⟨hz, ?_⟩
  intro edges
  constructor
  · intro hcase
    by_cases hall : Mat.allZero edges
    · have hn : ¬ Mat.sum (Mat.divScalar (Mat.toDouble edges) 255) > 0 := by
        rw [edges_sum_pos_iff]
        exact not_not.mpr hall
      refine ⟨_, compute_no_edges lib image edges hn, ?_, ?_, rfl⟩
      · simp only [hz, mean_zeros]
      · simp only [hz, mean_zeros, sub_zero]
    · rcases hcase with hsame | hcase
      · refine ⟨_, compute_same_size lib image edges hsame.1 hsame.2, ?_, ?_, ?_⟩
        · simp only [hz, mean_zeros]
        · simp only [hz, mean_zeros, sub_zero]
        · have hpos : Mat.sum (Mat.divScalar (Mat.toDouble edges) 255) > 0 :=
            (edges_sum_pos_iff edges).mpr hall
          simp only [if_pos hpos, hz]
          simp [Mat.sum, Mat.convertTo, Mat.zeros]
      · exact absurd hcase hall
  · intro s hs
    obtain ⟨_, hfg, hbg⟩ := compute_scores hs
    rw [hz, mean_zeros] at hfg
    rw [hfg] at hbg
    exact ⟨hfg, by rw [hbg]; ring⟩

/-- C4 at a concrete input: the image of 1 row and 3 columns, whose seed rectangle has
height 1, with the edge map of the same size. -/
theorem degenerate_seed_gives_background_witness :
    too_small (seed_rect image_1x3.cols image_1x3.rows) = true ∧
    (grabcut_foreground sample_lib image_1x3).2 = Mat.zeros 1 3 ∧
    ∃ s, (compute_foreground_background_probability sample_lib image_1x3 edges_1x3).2
        = some s ∧
      s.foreground_score = 0 ∧ s.background_score = 1 ∧ s.edge_weighted_fg = 0 := by
  have hsmall : too_small (seed_rect image_1x3.cols image_1x3.rows) = true := by decide
  have h := degenerate_seed_gives_background sample_lib image_1x3 (Or.inl hsmall)
  exact ⟨hsmall, h.1, (h.2 edges_1x3).1 (Or.inl ⟨rfl, rfl⟩)⟩

/-! ## Driver -/

theorem scale_edges_events (lib : Lib) (image : Mat Nat) (sigma : ℚ) :
    ∀ e ∈ (scale_edges lib image sigma).1, e.isScore = false ∧
      ∀ d, e.stageSize = some d → d = (image.rows, image.cols) := by
  unfold scale_edges
  split
  · simp [Event.isScore, Event.stageSize]
  · dsimp only
    split <;> simp [Event.isScore, Event.stageSize]

theorem canny_loop_events (lib : Lib) (image : Mat Nat) (sigma_list : List ℚ) :
    ∀ acc : Mat Nat, ∀ e ∈ (canny_loop lib image sigma_list acc).1, e.isScore = false ∧
      ∀ d, e.stageSize = some d → d = (image.rows, image.cols) := by
  induction sigma_list with
  | nil => intro acc e he; simp [canny_loop] at he
  | cons sigma rest ih =>
    intro acc e he
    have hs := scale_edges_events lib image sigma
    rcases hsc : scale_edges lib image sigma with ⟨ev, _ | edges⟩
    · rw [hsc] at hs
      simp only [canny_loop, hsc] at he
      exact hs e he
    · rw [hsc] at hs
      simp only [canny_loop, hsc, List.mem_append] at he
      rcases he with he | he
      · exact hs e he
      · exact ih _ e he

theorem canny_loop_dims (lib : Lib) (image : Mat Nat) (sigma_list : List ℚ) :
    ∀ acc r : Mat Nat, (canny_loop lib image sigma_list acc).2 = some r →
      r.rows = acc.rows ∧ r.cols = acc.cols := by
  induction sigma_list with
  | nil =>
    intro acc r h
    simp only [canny_loop, Option.some.injEq] at h
    subst h
    exact ⟨rfl, rfl⟩
  | cons sigma rest ih =>
    intro acc r h
    rcases hsc : scale_edges lib image sigma with ⟨ev, _ | edges⟩
    · simp [canny_loop, hsc] at h
    · simp only [canny_loop, hsc] at h
      exact ih (Mat.max acc edges) r h

theorem canny_loop_returns (lib : Lib) (image : Mat Nat) (sigma_list : List ℚ) :
    ∀ acc : Mat Nat, (∀ sigma ∈ sigma_list, (scale_edges lib image sigma).2 ≠ none) →
      ∃ r, (canny_loop lib image sigma_list acc).2 = some r := by
  induction sigma_list with
  | nil => intro acc _; exact ⟨acc, rfl⟩
  | cons sigma rest ih =>
    intro acc h
    rcases hsc : scale_edges lib image sigma with ⟨ev, _ | edges⟩
    · have := h sigma (List.mem_cons_self sigma rest)
      rw [hsc] at this
      exact absurd rfl this
    · simp only [canny_loop, hsc]
      exact ih _ fun s hs => h s (List.mem_cons_of_mem sigma hs)

theorem multi_scale_canny_dims (lib : Lib) (image : Mat Nat) (sigma_list : List ℚ)
    (r : Mat Nat) (h : (multi_scale_canny lib image sigma_list).2 = some r) :
    r.rows = image.rows ∧ r.cols = image.cols := by
  unfold multi_scale_canny at h
  dsimp only at h
  rcases hl : canny_loop lib image sigma_list (Mat.zeros image.rows image.cols)
    with ⟨ev, _ | combined⟩
  · simp [hl] at h
  · simp only [hl, Option.some.injEq] at h
    subst h
    have hd := canny_loop_dims lib image sigma_list _ combined (by rw [hl])
    exact hd

theorem multi_scale_canny_returns (lib : Lib) (image : Mat Nat) (sigma_list : List ℚ)
    (h : ∀ sigma ∈ sigma_list, (scale_edges lib image sigma).2 ≠ none) :
    ∃ r, (multi_scale_canny lib image sigma_list).2 = some r := by
  obtain ⟨c, hc⟩ := canny_loop_returns lib image sigma_list
    (Mat.zeros image.rows image.cols) h
  exact ⟨morph_close c, multi_scale_canny_of_loop hc⟩

theorem multi_scale_canny_events (lib : Lib) (image : Mat Nat) (sigma_list : List ℚ) :
    ∀ e ∈ (multi_scale_canny lib image sigma_list).1, e.isScore = false ∧
      ∀ d, e.stageSize = some d → d = (image.rows, image.cols) := by
  intro e he
  have hev := canny_loop_events lib image sigma_list (Mat.zeros image.rows image.cols)
  unfold multi_scale_canny at he
  dsimp only at he
  rcases hl : canny_loop lib image sigma_list (Mat.zeros image.rows image.cols)
    with ⟨ev, _ | combined⟩
  · rw [hl] at hev
    simp only [hl] at he
    exact hev e he
  · rw [hl] at hev
    have hd := canny_loop_dims lib image sigma_list _ combined (by rw [hl])
    simp only [hl, List.mem_append, List.mem_singleton] at he
    rcases he with he | he
    · exact hev e he
    · subst he
      simp only [Event.isScore, Event.stageSize, Option.some.injEq, true_and]
      intro d hdq
      rw [← hdq, hd.1, hd.2]
      rfl

theorem grabcut_foreground_events (lib : Lib) (image : Mat Color) :
    ∀ e ∈ (grabcut_foreground lib image).1, e.isScore = false ∧
      ∀ d, e.stageSize = some d → d = (image.rows, image.cols) := by
  unfold grabcut_foreground
  dsimp only
  split
  · simp [Event.isScore, Event.stageSize]
  · split <;> simp [Event.isScore, Event.stageSize]

theorem compute_events (lib : Lib) (image : Mat Color) (edges : Mat Nat) :
    ∀ e ∈ (compute_foreground_background_probability lib image edges).1,
      e.isScore = false ∧ ∀ d, e.stageSize = some d → d = (image.rows, image.cols) := by
  have hg := grabcut_foreground_events lib image
  have hp : ∀ e ∈ compute_progress, e.isScore = false ∧
      ∀ d, e.stageSize = some d → d = (image.rows, image.cols) := by
    simp [compute_progress, Event.isScore, Event.stageSize]
  have hhead : ∀ e ∈ Event.cout "Computing foreground and background probabilities... " ::
      (grabcut_foreground lib image).1 ++ compute_progress, e.isScore = false ∧
      ∀ d, e.stageSize = some d → d = (image.rows, image.cols) := by
    intro e he
    simp only [List.cons_append, List.mem_cons, List.mem_append] at he
    rcases he with he | he | he
    · subst he; simp [Event.isScore, Event.stageSize]
    · exact hg e he
    · exact hp e he
  have hdone : ∀ e ∈ [Event.cout "done!"], e.isScore = false ∧
      ∀ d, e.stageSize = some d → d = (image.rows, image.cols) := by
    simp [Event.isScore, Event.stageSize]
  intro e he
  unfold compute_foreground_background_probability at he
  dsimp only at he
  split at he
  · split at he
    · exact hhead e he
    · rw [List.mem_append] at he
      rcases he with he | he
      · exact hhead e he
      · exact hdone e he
  · rw [List.mem_append] at he
    rcases he with he | he
    · exact hhead e he
    · exact hdone e he

theorem main_pipeline_stage_sizes (lib : Lib) (image : Mat Color) :
    ∀ e ∈ (main_pipeline lib image).events,
      ∀ d, e.stageSize = some d → d = (image.rows, image.cols) := by
  have h1 : ∀ e ∈ [Event.coutSize image.cols image.rows,
      Event.call Prim.cvtColor image.rows image.cols,
      Event.cout "Applying multi-scale Canny edge detection..."],
      ∀ d, e.stageSize = some d → d = (image.rows, image.cols) := by
    intro e he d hd
    simp only [List.mem_cons, List.mem_singleton, List.not_mem_nil, or_false] at he
    rcases he with he | he | he <;> subst he <;>
      simp only [Event.stageSize, Option.some.injEq, reduceCtorEq] at hd
    exact hd.symm
  have h2 := multi_scale_canny_events lib (gray_of lib image) default_sigma_list
  intro e he d hd
  unfold main_pipeline at he
  dsimp only at he
  rcases hm : multi_scale_canny lib (gray_of lib image) default_sigma_list
    with ⟨ev2, _ | edges⟩
  · rw [hm] at h2
    simp only [hm, List.mem_append] at he
    rcases he with he | he
    · exact h1 e he d hd
    · exact (h2 e he).2 d hd
  · rw [hm] at h2
    have h4 := compute_events lib image edges
    rcases hcp : compute_foreground_background_probability lib image edges
      with ⟨ev4, _ | s⟩
    · rw [hcp] at h4
      simp only [hm, hcp, List.mem_append, List.mem_singleton] at he
      rcases he with ((he | he) | he) | he
      · exact h1 e he d hd
      · exact (h2 e he).2 d hd
      · subst he; simp [Event.stageSize] at hd
      · exact (h4 e he).2 d hd
    · rw [hcp] at h4
      simp only [hm, hcp, List.mem_append, List.mem_singleton, List.mem_cons,
        List.not_mem_nil, or_false] at he
      rcases he with (((he | he) | he) | he) | he
      · exact h1 e (by simpa using he) d hd
      · exact (h2 e he).2 d hd
      · subst he; simp [Event.stageSize] at hd
      · exact (h4 e he).2 d hd
      · rcases he with he | he | he <;> subst he <;> simp [Event.stageSize] at hd

theorem main_pipeline_status (lib : Lib) (image : Mat Color) :
    (main_pipeline lib image).status ≠ some (-1) := by
  unfold main_pipeline
  dsimp only
  rcases multi_scale_canny lib (gray_of lib image) default_sigma_list with ⟨ev2, _ | edges⟩
  · simp
  · dsimp only
    rcases compute_foreground_background_probability lib image edges with ⟨ev4, _ | s⟩
    · simp
    · simp

theorem main_pipeline_returns (lib : Lib) (image : Mat Color)
    (h : ∀ sigma ∈ default_sigma_list,
      (scale_edges lib (gray_of lib image) sigma).2 ≠ none) :
    (main_pipeline lib image).status = some 0 ∧
    ∃ pre edges s,
      (multi_scale_canny lib (gray_of lib image) default_sigma_list).2 = some edges ∧
      (compute_foreground_background_probability lib image edges).2 = some s ∧
      (main_pipeline lib image).events = pre ++
        [Event.coutScore "Foreground Probability Score: " s.foreground_score,
         Event.coutScore "Background Probability Score: " s.background_score,
         Event.coutScore "Edge-Weighted Foreground Score: " s.edge_weighted_fg] := by
  obtain ⟨edges, hedges⟩ := multi_scale_canny_returns lib (gray_of lib image)
    default_sigma_list h
  have hd := multi_scale_canny_dims lib (gray_of lib image) default_sigma_list edges hedges
  have hcs := compute_same_size lib image edges hd.1 hd.2
  unfold main_pipeline
  dsimp only
  rcases hm : multi_scale_canny lib (gray_of lib image) default_sigma_list
    with ⟨ev2, _ | edges2⟩
  · rw [hm] at hedges
    simp at hedges
  · rw [hm] at hedges
    simp only [Option.some.injEq] at hedges
    subst hedges
    dsimp only
    rcases hcp : compute_foreground_background_probability lib image edges2
      with ⟨ev4, _ | s⟩
    · rw [hcp] at hcs
      simp at hcs
    · exact ⟨rfl, _, edges2, s, rfl, by rw [hcp], rfl⟩

theorem size_step_events (lib : Lib) (image : Mat Color) :
    ∀ e ∈ (size_step lib image).1,
      e.isScore = false ∧ e.isStageCall = false ∧ e.stageSize = none := by
  unfold size_step
  split <;> simp [Event.isScore, Event.isStageCall, Event.stageSize]

theorem main_of_loaded (lib : Lib) (path : String) (h : (lib.imread path).empty = false) :
    main lib 2 path =
      ⟨(main_pipeline lib (size_step lib (lib.imread path)).2).status,
        [Event.call Prim.imread (lib.imread path).rows (lib.imread path).cols] ++
          (size_step lib (lib.imread path)).1 ++
          (main_pipeline lib (size_step lib (lib.imread path)).2).events⟩ := by
  unfold main
  simp [h]

/-- C5: for every loaded image of width `w` and height `h`, the image that leaves the size
step of `main` is 100 by 100 when `w < 100` or `h < 100` and `w` by `h` otherwise, so both
dimensions are at least 100; and in a run of `main` on a loaded image every primitive of
grayscale conversion, edge extraction and segmentation is invoked on an array of exactly
these dimensions. -/
theorem size_step_dimensions (lib : Lib) (path : String) :
    (((lib.imread path).cols < 100 ∨ (lib.imread path).rows < 100) →
      (size_step lib (lib.imread path)).2.cols = 100 ∧
      (size_step lib (lib.imread path)).2.rows = 100) ∧
    (¬ ((lib.imread path).cols < 100 ∨ (lib.imread path).rows < 100) →
      (size_step lib (lib.imread path)).2.cols = (lib.imread path).cols ∧
      (size_step lib (lib.imread path)).2.rows = (lib.imread path).rows) ∧
    (100 ≤ (size_step lib (lib.imread path)).2.cols ∧
      100 ≤ (size_step lib (lib.imread path)).2.rows) ∧
    ((lib.imread path).empty = false →
      ∀ e ∈ (main lib 2 path).events, ∀ d, e.stageSize = some d →
        d = ((size_step lib (lib.imread path)).2.rows,
          (size_step lib (lib.imread path)).2.cols)) := by
  refine ⟨size_step_small lib _, ?_, size_step_ge lib _, ?_⟩
  · intro h
    rw [size_step_large lib _ h]
    exact ⟨rfl, rfl⟩
  · intro hload e he d hd
    rw [main_of_loaded lib path hload] at he
    simp only [List.mem_append, List.mem_singleton] at he
    rcases he with (he | he) | he
    · subst he
      simp [Event.stageSize] at hd
    · have := (size_step_events lib _ e he).2.2
      rw [this] at hd
      simp at hd
    · exact main_pipeline_stage_sizes lib _ e he d hd

/-- C6: `main` returns -1 exactly when the argument count is not 2 or the loader returns
an empty image; in both cases no score line is written and no primitive of edge extraction
or segmentation is invoked; and in every other run in which the blur and the edge detector
return normally at the three default scales, `main` returns 0 and the last three events are
the three score lines, carrying the scores the aggregator returned. -/
theorem main_exit_status (lib : Lib) (ac : Int) (path : String) :
    ((main lib ac path).status = some (-1) ↔ (ac ≠ 2 ∨ (lib.imread path).empty = true)) ∧
    ((ac ≠ 2 ∨ (lib.imread path).empty = true) →
      ∀ e ∈ (main lib ac path).events, e.isScore = false ∧ e.isStageCall = false) ∧
    (ac = 2 → (lib.imread path).empty = false →
      (∀ sigma ∈ default_sigma_list,
        (scale_edges lib (gray_of lib (size_step lib (lib.imread path)).2) sigma).2 ≠ none) →
      (main lib ac path).status = some 0 ∧
      ∃ pre edges s,
        (multi_scale_canny lib (gray_of lib (size_step lib (lib.imread path)).2)
          default_sigma_list).2 = some edges ∧
        (compute_foreground_background_probability lib
          (size_step lib (lib.imread path)).2 edges).2 = some s ∧
        (main lib ac path).events = pre ++
          [Event.coutScore "Foreground Probability Score: " s.foreground_score,
           Event.coutScore "Background Probability Score: " s.background_score,
           Event.coutScore "Edge-Weighted Foreground Score: " s.edge_weighted_fg]) := by
  refine ⟨?_, ?_, ?_⟩
  · by_cases hac : ac = 2
    · subst hac
      cases hload : (lib.imread path).empty
      · rw [main_of_loaded lib path hload]
        have := main_pipeline_status lib (size_step lib (lib.imread path)).2
        simp [this]
      · simp [main, hload]
    · simp [main, hac]
  · intro h e he
    by_cases hac : ac = 2
    · subst hac
      rcases h with h | h
      · exact absurd rfl h
      · simp only [main, h, ne_eq, not_true_eq_false, if_false, if_true, List.mem_append,
          List.mem_singleton] at he
        rcases he with he | he <;> subst he <;> simp [Event.isScore, Event.isStageCall]
    · simp only [main, ne_eq, hac, not_false_eq_true, if_true, List.mem_singleton] at he
      subst he
      simp [Event.isScore, Event.isStageCall]
  · intro hac hload hprim
    subst hac
    obtain ⟨hst, pre, edges, s, hedges, hs, hev⟩ :=
      main_pipeline_returns lib (size_step lib (lib.imread path)).2 hprim
    rw [main_of_loaded lib path hload]
    refine ⟨hst, [Event.call Prim.imread (lib.imread path).rows (lib.imread path).cols] ++
      (size_step lib (lib.imread path)).1 ++ pre, edges, s, hedges, hs, ?_⟩
    dsimp only
    rw [hev, ← List.append_assoc]

/-- C6 at concrete inputs: with the sample library a run with two arguments returns 0 and
a run with three arguments returns -1. -/
theorem main_exit_status_witness :
    (main sample_lib 2 "photo.png").status = some 0 ∧
    (main sample_lib 3 "photo.png").status = some (-1) := by
  have h2 := main_exit_status sample_lib 2 "photo.png"
  have h3 := main_exit_status sample_lib 3 "photo.png"
  refine ⟨(h2.2.2 rfl rfl ?_).1, h3.1.mpr (Or.inl (by decide))⟩
  intro sigma _
  simp [scale_edges, sample_lib]

end GrabcutEdge
